import Mathlib

/-!
Verification of the document-layout reconstruction engine of `server.py`
(pdf_to_excel pipeline): geometry utilities, 1-D clustering, word-fragment
merging, table deduplication and quality filtering, and the per-page layout
composition.  Coordinates are modelled as rationals (the Python floats are
used only through arithmetic, comparisons and `abs`); Python strings are
modelled as `List Char` so that `strip`, `isalpha` and concatenation are
structural.  `Char.isAlpha` / `Char.isWhitespace` stand in for Python's
`str.isalpha` / whitespace stripping (ASCII fragment).
-/

namespace Nova

/-! ## Geometry: axis-aligned boxes and `_bbox_iou` (server.py lines 277-289) -/

structure Box where
  x0 : ℚ
  y0 : ℚ
  x1 : ℚ
  y1 : ℚ
deriving DecidableEq

/-- `iw * ih` of `_bbox_iou`: clamped width times clamped height of the
intersection rectangle. -/
def interArea (a b : Box) : ℚ :=
  max 0 (min a.x1 b.x1 - max a.x0 b.x0) * max 0 (min a.y1 b.y1 - max a.y0 b.y0)

/-- `area_a` / `area_b` of `_bbox_iou`: box area clamped at zero. -/
def boxArea (a : Box) : ℚ :=
  max 0 ((a.x1 - a.x0) * (a.y1 - a.y0))

/-- `_bbox_iou(a, b)`: intersection over union with the two early-return
guards of the source (`inter <= 0` and `union > 0`). -/
def _bbox_iou (a b : Box) : ℚ :=
  if interArea a b ≤ 0 then 0
  else if boxArea a + boxArea b - interArea a b > 0 then
    interArea a b / (boxArea a + boxArea b - interArea a b)
  else 0

/-- Two boxes do not overlap: the intersection is empty in `x` or in `y`. -/
def boxDisjoint (a b : Box) : Prop :=
  min a.x1 b.x1 ≤ max a.x0 b.x0 ∨ min a.y1 b.y1 ≤ max a.y0 b.y0

/-! ## 1-D clustering: `_cluster_positions` (server.py lines 251-261) -/

/-- Stable insertion into a list sorted by `key` (placed before the first
element with a strictly larger-or-equal key coming later). -/
def insertLe {α : Type} (key : α → ℚ) (a : α) : List α → List α
  | [] => [a]
  | b :: l => if key a ≤ key b then a :: b :: l else b :: insertLe key a l

/-- Stable sort by a rational key, modelling Python's stable `sorted` /
`list.sort(key=...)`. -/
def stableSortBy {α : Type} (key : α → ℚ) : List α → List α
  | [] => []
  | a :: l => insertLe key a (stableSortBy key l)

/-- `sorted(values)` on rationals. -/
def sortQ (l : List ℚ) : List ℚ := stableSortBy (fun x => x) l

/-- One iteration of the `for v in values[1:]` loop of `_cluster_positions`:
append `v` to the last cluster when it is within `tolerance` of that
cluster's last element (`clusters[-1][-1]`), else start a new cluster.
The inner `none` branch is unreachable because clusters are never empty. -/
def clusterStep (tolerance : ℚ) (clusters : List (List ℚ)) (v : ℚ) : List (List ℚ) :=
  match clusters.getLast? with
  | none => [[v]]
  | some c =>
    match c.getLast? with
    | none => clusters
    | some last =>
      if |v - last| ≤ tolerance then clusters.dropLast ++ [c ++ [v]]
      else clusters ++ [[v]]

/-- The arithmetic mean `sum(c) / len(c)` of a cluster. -/
def clusterMean (c : List ℚ) : ℚ := c.sum / (c.length : ℚ)

/-- `_cluster_positions(values, tolerance)`: sort, greedily chain into
clusters, return the means. -/
def _cluster_positions (values : List ℚ) (tolerance : ℚ) : List ℚ :=
  match sortQ values with
  | [] => []
  | v :: vs => ((vs.foldl (clusterStep tolerance) [[v]]).map clusterMean)

/-- Reference greedy chaining (the spec's description of `cluster_1d`):
`chainGo tol v vs` splits `v :: vs` into the cluster containing `v` (first
component) and the remaining clusters; a new cluster starts exactly when the
next value differs from the previous value — the last accepted value of the
current cluster — by more than `tol`. -/
def chainGo (tol : ℚ) (v : ℚ) : List ℚ → List ℚ × List (List ℚ)
  | [] => ([v], [])
  | w :: ws =>
    let r := chainGo tol w ws
    if |w - v| ≤ tol then (v :: r.1, r.2) else ([v], r.1 :: r.2)

/-- The full cluster decomposition of a nonempty sorted list. -/
def chainClusters (tol : ℚ) (v : ℚ) (vs : List ℚ) : List (List ℚ) :=
  (chainGo tol v vs).1 :: (chainGo tol v vs).2

/-- `cluster_1d` as the spec words it: sort ascending, greedily chain
relative to the last accepted value, return each cluster's mean. -/
def cluster_1d_spec (values : List ℚ) (tolerance : ℚ) : List ℚ :=
  match sortQ values with
  | [] => []
  | v :: vs => (chainClusters tolerance v vs).map clusterMean

/-! ## `_nearest_index` (server.py lines 264-274) -/

/-- The `for i in range(1, len(centers))` loop: strict improvement keeps the
first (lowest-index) minimum. -/
def nearGo (value : ℚ) (bestIdx : ℕ) (bestDist : ℚ) (i : ℕ) : List ℚ → ℕ
  | [] => bestIdx
  | c :: cs =>
    if |value - c| < bestDist then nearGo value i (|value - c|) (i + 1) cs
    else nearGo value bestIdx bestDist (i + 1) cs

/-- `_nearest_index(value, centers)`. -/
def _nearest_index (value : ℚ) (centers : List ℚ) : ℕ :=
  match centers with
  | [] => 0
  | c0 :: rest => nearGo value 0 (|value - c0|) 1 rest

/-! ## Python string fragments: strip and isalpha on `List Char` -/

/-- Python `str.strip()`: drop whitespace from both ends. -/
def pyStrip (l : List Char) : List Char :=
  ((l.dropWhile Char.isWhitespace).reverse.dropWhile Char.isWhitespace).reverse

/-- Python `str.isalpha()`: nonempty and all alphabetic. -/
def pyIsAlpha (l : List Char) : Bool :=
  !l.isEmpty && l.all Char.isAlpha

/-- A text with no whitespace at all and at least one character (the shape of
every token text that reaches the fragment merger in the pipeline, since
`convert_file` strips tokens and drops the empty ones). -/
def cleanWord (l : List Char) : Prop :=
  l ≠ [] ∧ ∀ c ∈ l, ¬(c.isWhitespace = true)

/-- Erase whitespace characters; used to state text conservation "modulo
inserted separators". -/
def cleanNW (l : List Char) : List Char :=
  l.filter (fun c => !c.isWhitespace)

instance (l : List Char) : Decidable (cleanWord l) := by
  unfold cleanWord; infer_instance

/-! ## Word fragment merger: `_merge_fragmented_words` (server.py lines 327-347) -/

/-- A free word as built by `convert_file`: `{"x0":…, "x1":…, "y0":…, "text":…}`. -/
structure Word where
  x0 : ℚ
  x1 : ℚ
  y0 : ℚ
  text : List Char
deriving DecidableEq

/-- The merge condition of `_merge_fragmented_words`, with `prev` the current
accumulated token (`merged[-1]`). -/
def shouldMerge (prev w : Word) : Prop :=
  w.x0 - prev.x1 ≤ 12 ∧
    (prev.text.length ≤ 3 ∨ w.text.length ≤ 3 ∨
      (pyIsAlpha prev.text = true ∧ pyIsAlpha w.text = true))

instance (prev w : Word) : Decidable (shouldMerge prev w) := by
  unfold shouldMerge; infer_instance

/-- The merged token: `prev` absorbs `w`, keeping `prev`'s `x0`/`y0`, taking
`w`'s `x1`, and joining the texts with `""` when both are alphabetic and a
single space otherwise; the source then strips the joined text. -/
def mergeTok (prev w : Word) : Word :=
  { x0 := prev.x0
    x1 := w.x1
    y0 := prev.y0
    text := pyStrip (prev.text ++
      (if pyIsAlpha prev.text = true ∧ pyIsAlpha w.text = true then [] else [' ']) ++
      w.text) }

/-- The `for w in words[1:]` loop, with `prev` the mutable `merged[-1]`. -/
def mergeGo (prev : Word) : List Word → List Word
  | [] => [prev]
  | w :: ws =>
    if shouldMerge prev w then mergeGo (mergeTok prev w) ws
    else prev :: mergeGo w ws

/-- `_merge_fragmented_words(words)`. -/
def _merge_fragmented_words (words : List Word) : List Word :=
  match words with
  | [] => []
  | w :: ws => mergeGo w ws

/-! ## Tables: shape quality, dedup, retention (server.py 292-324, 812-819) -/

/-- A detected table candidate: its bbox and the extracted grid (cells may be
`None`, modelled as `none`). -/
structure Candidate where
  bbox : Box
  data : List (List (Option (List Char)))
deriving DecidableEq

/-- `_table_shape_quality(data)`: `(rows, cols, non_empty)` with `cols` the
maximum row length and `non_empty` the count of cells that are not `None`
and not whitespace-only. -/
def _table_shape_quality (data : List (List (Option (List Char)))) : ℕ × ℕ × ℕ :=
  (data.length,
   (data.map List.length).foldr max 0,
   (data.map (fun r => r.countP (fun c =>
      match c with
      | none => false
      | some s => decide (pyStrip s ≠ [])))).sum)

/-- The dedup loop of `_extract_tables_with_fallback`: `seen` is
`seen_bboxes`; a candidate is skipped iff its bbox has iou `> 0.75` with some
previously accepted bbox. -/
def dedupGo (seen : List Box) : List Candidate → List Candidate
  | [] => []
  | c :: cs =>
    if seen.any (fun sb => decide (_bbox_iou c.bbox sb > 3/4)) then dedupGo seen cs
    else c :: dedupGo (seen ++ [c.bbox]) cs

/-- `_extract_tables_with_fallback`, applied to the concatenated candidate
lists of the detection strategies in strategy order. -/
def _extract_tables_with_fallback (cands : List Candidate) : List Candidate :=
  dedupGo [] cands

/-- The quality filter of `convert_file` (lines 812-817): skip when
`rows < 2 or cols < 2 or non_empty < 4`; a candidate is retained when it
survives both dedup and this filter. -/
def retainedTables (cands : List Candidate) : List Candidate :=
  (_extract_tables_with_fallback cands).filter (fun t =>
    let q := _table_shape_quality t.data
    !(decide (q.1 < 2) || decide (q.2.1 < 2) || decide (q.2.2 < 4)))

/-! ## Per-page layout composition (server.py lines 821-857) -/

/-- A raw positioned token of `page.get_text("words")`. -/
structure RawWord where
  x0 : ℚ
  y0 : ℚ
  x1 : ℚ
  y1 : ℚ
  text : List Char
deriving DecidableEq

/-- Membership of a point in one table bbox expanded by the 1-unit margin. -/
def expandedContains (b : Box) (x y : ℚ) : Bool :=
  decide (b.x0 - 1 ≤ x) && decide (x ≤ b.x1 + 1) &&
  decide (b.y0 - 1 ≤ y) && decide (y ≤ b.y1 + 1)

/-- `_inside_table(x, y)`: inside any retained table's expanded bbox. -/
def _inside_table (bboxes : List Box) (x y : ℚ) : Bool :=
  bboxes.any (fun b => expandedContains b x y)

/-- What the free-word loop of `convert_file` does with one raw token:
strip the text, drop it if empty, drop it if its center is inside a table
region, otherwise keep `{"x0":…, "x1":…, "y0":…, "text":…}`. -/
def freeWordOf (bboxes : List Box) (w : RawWord) : Option Word :=
  if pyStrip w.text = [] then none
  else if _inside_table bboxes ((w.x0 + w.x1) / 2) ((w.y0 + w.y1) / 2) then none
  else some ⟨w.x0, w.x1, w.y0, pyStrip w.text⟩

/-- The `free_words` list of `convert_file`. -/
def freeWords (bboxes : List Box) (words : List RawWord) : List Word :=
  words.filterMap (freeWordOf bboxes)

/-- Keys in order of first occurrence: the iteration order of the Python
dict `lines_map` (insertion-ordered). -/
def firstOccs : List ℕ → List ℕ
  | [] => []
  | a :: l => a :: firstOccs (l.filter (fun b => b ≠ a))
termination_by l => l.length
decreasing_by
  exact Nat.lt_succ_of_le (l.length_filter_le _)

/-- `lines_map` of `convert_file` as an association list: one entry per
distinct nearest-center index, in first-occurrence order, with the words
assigned to that index in input order. -/
def lineGroups (centers : List ℚ) (fw : List Word) : List (ℕ × List Word) :=
  (firstOccs (fw.map (fun w => _nearest_index w.y0 centers))).map
    (fun k => (k, fw.filter (fun w => _nearest_index w.y0 centers == k)))

/-- A page element: a retained table or a composed text line. -/
inductive Element where
  | table (y : ℚ) (t : Candidate)
  | line (y : ℚ) (spans : List Word)
deriving DecidableEq

/-- The sort key `e["y"]`. -/
def Element.y : Element → ℚ
  | .table y _ => y
  | .line y _ => y

def Element.isTable : Element → Bool
  | .table _ _ => true
  | .line _ _ => false

def Element.isLine : Element → Bool
  | .table _ _ => false
  | .line _ _ => true

/-- The bboxes of the retained tables of a page. -/
def pageBBoxes (cands : List Candidate) : List Box :=
  (retainedTables cands).map (fun t => t.bbox)

/-- The page's free words. -/
def pageFreeWords (cands : List Candidate) (words : List RawWord) : List Word :=
  freeWords (pageBBoxes cands) words

/-- The `y_centers` of the page (tolerance `3.2 = 16/5`). -/
def pageCenters (cands : List Candidate) (words : List RawWord) : List ℚ :=
  _cluster_positions ((pageFreeWords cands words).map (fun w => w.y0)) (16/5)

/-- The page's `lines_map`. -/
def pageLineGroups (cands : List Candidate) (words : List RawWord) : List (ℕ × List Word) :=
  lineGroups (pageCenters cands words) (pageFreeWords cands words)

/-- The final `elements` of a page: table elements (in retention order), then
line elements (in `lines_map` order, each group sorted by `x0` and merged),
stably sorted by `y`. -/
def pageElements (cands : List Candidate) (words : List RawWord) : List Element :=
  stableSortBy Element.y
    ((retainedTables cands).map (fun t => Element.table t.bbox.y0 t) ++
     (pageLineGroups cands words).map (fun p =>
        Element.line ((pageCenters cands words).getD p.1 0)
          (_merge_fragmented_words (stableSortBy (fun w => w.x0) p.2))))

/-- What a page contributes to the sheet: either the single sentinel marker
(`ws["A1"] = "No extractable text found on this page."`) or its nonempty
element stream. -/
inductive PageOut where
  | sentinel (msg : List Char)
  | content (els : List Element)
deriving DecidableEq

def sentinelMsg : List Char := "No extractable text found on this page.".toList

/-- Lines 855-857 of `convert_file`. -/
def renderPage (cands : List Candidate) (words : List RawWord) : PageOut :=
  match pageElements cands words with
  | [] => .sentinel sentinelMsg
  | e :: es => .content (e :: es)

/-- How many retained-table expanded regions contain the token's center. -/
def tableRegionCount (cands : List Candidate) (w : RawWord) : ℕ :=
  (pageBBoxes cands).countP
    (fun b => expandedContains b ((w.x0 + w.x1) / 2) ((w.y0 + w.y1) / 2))

/-- How many line groups of the page contain a given word value. -/
def lineGroupCount (cands : List Candidate) (words : List RawWord) (wd : Word) : ℕ :=
  (pageLineGroups cands words).countP (fun p => decide (wd ∈ p.2))

/-- The cluster decomposition underlying `_cluster_positions`. -/
def clustersOf (values : List ℚ) (tol : ℚ) : List (List ℚ) :=
  match sortQ values with
  | [] => []
  | v :: vs => chainClusters tol v vs

/-- The gap relation between adjacent clusters: the last element of the
earlier cluster precedes, and is more than `tol` below, the first element of
the later cluster. -/
def BndRel (tol : ℚ) (c d : List ℚ) : Prop :=
  c.getLastD 0 ≤ d.headD 0 ∧ tol < d.headD 0 - c.getLastD 0

/-- Concatenation of the texts of a word list. -/
def joinedText (ws : List Word) : List Char :=
  ws.foldr (fun w acc => w.text ++ acc) []

/-! ## Concrete page used to test the token-partition claim -/

def cexData : List (List (Option (List Char))) :=
  [[some ['a'], some ['b']], [some ['c'], some ['d']]]

/-- Two candidates whose bboxes overlap at `iou = 1/3`: both survive dedup
and the shape filter. -/
def cexCands : List Candidate :=
  [⟨⟨0, 0, 10, 10⟩, cexData⟩, ⟨⟨5, 0, 15, 10⟩, cexData⟩]

/-- A token whose center `(7, 5)` lies inside both retained tables' expanded
regions. -/
def cexToken : RawWord := ⟨6, 4, 8, 6, ['x']⟩

/-- A whitespace-only token away from both tables. -/
def cexTokenWS : RawWord := ⟨100, 100, 101, 101, [' ']⟩

def cexWords : List RawWord := [cexToken, cexTokenWS]

/-- The token-partition claim as stated, at one token: the token belongs to
exactly one line group and no retained table region, or to no line group and
exactly one retained table region. -/
def C1ClaimAt (cands : List Candidate) (words : List RawWord) (t : RawWord) : Prop :=
  (lineGroupCount cands words ⟨t.x0, t.x1, t.y0, pyStrip t.text⟩ = 1 ∧
    tableRegionCount cands t = 0) ∨
  (lineGroupCount cands words ⟨t.x0, t.x1, t.y0, pyStrip t.text⟩ = 0 ∧
    tableRegionCount cands t = 1)

/-! ## Geometry lemmas -/

theorem interArea_comm (a b : Box) : interArea a b = interArea b a := by
  unfold interArea
  rw [min_comm a.x1 b.x1, max_comm a.x0 b.x0, min_comm a.y1 b.y1, max_comm a.y0 b.y0]

theorem bbox_iou_comm (a b : Box) : _bbox_iou a b = _bbox_iou b a := by
  unfold _bbox_iou
  rw [interArea_comm a b, add_comm (boxArea a) (boxArea b)]

theorem interArea_nonneg (a b : Box) : 0 ≤ interArea a b :=
  mul_nonneg (le_max_left 0 _) (le_max_left 0 _)

theorem interArea_eq_zero_of_x (a b : Box)
    (h : min a.x1 b.x1 - max a.x0 b.x0 ≤ 0) : interArea a b = 0 := by
  unfold interArea
  rw [max_eq_left h, zero_mul]

theorem interArea_eq_zero_of_y (a b : Box)
    (h : min a.y1 b.y1 - max a.y0 b.y0 ≤ 0) : interArea a b = 0 := by
  unfold interArea
  rw [max_eq_left h, mul_zero]

theorem interArea_le_boxArea_left (a b : Box) (h : 0 < interArea a b) :
    interArea a b ≤ boxArea a := by
  unfold interArea at *
  set iw := min a.x1 b.x1 - max a.x0 b.x0 with hiw
  set ih := min a.y1 b.y1 - max a.y0 b.y0 with hih
  have hiw0 : 0 < max 0 iw := by
    by_contra hc
    push_neg at hc
    have : max 0 iw = 0 := le_antisymm hc (le_max_left 0 iw)
    rw [this, zero_mul] at h
    exact lt_irrefl 0 h
  have hih0 : 0 < max 0 ih := by
    by_contra hc
    push_neg at hc
    have : max 0 ih = 0 := le_antisymm hc (le_max_left 0 ih)
    rw [this, mul_zero] at h
    exact lt_irrefl 0 h
  have hw : max 0 iw = iw := max_eq_right (by rcases max_cases 0 iw with ⟨h1, h2⟩ | ⟨h1, h2⟩ <;> [exact absurd (h1 ▸ hiw0) (lt_irrefl 0); exact le_of_lt h2])
  have hh : max 0 ih = ih := max_eq_right (by rcases max_cases 0 ih with ⟨h1, h2⟩ | ⟨h1, h2⟩ <;> [exact absurd (h1 ▸ hih0) (lt_irrefl 0); exact le_of_lt h2])
  have hiwa : iw ≤ a.x1 - a.x0 := by
    have h1 : min a.x1 b.x1 ≤ a.x1 := min_le_left _ _
    have h2 : a.x0 ≤ max a.x0 b.x0 := le_max_left _ _
    rw [hiw]; linarith
  have hiha : ih ≤ a.y1 - a.y0 := by
    have h1 : min a.y1 b.y1 ≤ a.y1 := min_le_left _ _
    have h2 : a.y0 ≤ max a.y0 b.y0 := le_max_left _ _
    rw [hih]; linarith
  calc max 0 iw * max 0 ih = iw * ih := by rw [hw, hh]
    _ ≤ (a.x1 - a.x0) * (a.y1 - a.y0) := by
        apply mul_le_mul hiwa hiha (by rw [← hh]; exact le_of_lt hih0)
        rw [hw] at hiw0; linarith [hiwa, hiw0]
    _ ≤ boxArea a := le_max_right 0 _

theorem interArea_le_boxArea_right (a b : Box) (h : 0 < interArea a b) :
    interArea a b ≤ boxArea b := by
  rw [interArea_comm] at *
  exact interArea_le_boxArea_left b a h

/-- C8: `iou` postconditions — for every pair of axis-aligned boxes the
result lies in `[0,1]`; `iou(a,a) = 1` for every non-degenerate box; and
`iou(a,b) = 0` whenever the boxes do not overlap or either box has
non-positive area. -/
theorem C8_iou_postconditions (a b : Box) :
    (0 ≤ _bbox_iou a b ∧ _bbox_iou a b ≤ 1) ∧
    (a.x0 < a.x1 → a.y0 < a.y1 → _bbox_iou a a = 1) ∧
    (boxDisjoint a b → _bbox_iou a b = 0) ∧
    ((a.x1 - a.x0) * (a.y1 - a.y0) ≤ 0 ∨ (b.x1 - b.x0) * (b.y1 - b.y0) ≤ 0 →
      _bbox_iou a b = 0) := by
  refine ⟨?range, ?self, ?disj, ?area⟩
  case range =>
    unfold _bbox_iou
    split_ifs with h1 h2
    · exact ⟨le_refl 0, by norm_num⟩
    · push_neg at h1
      have hA : interArea a b ≤ boxArea a := interArea_le_boxArea_left a b h1
      have hB : interArea a b ≤ boxArea b := interArea_le_boxArea_right a b h1
      constructor
      · exact div_nonneg (le_of_lt h1) (le_of_lt h2)
      · rw [div_le_one h2]; linarith
    · exact ⟨le_refl 0, by norm_num⟩
  case self =>
    intro hx hy
    have hinter : interArea a a = (a.x1 - a.x0) * (a.y1 - a.y0) := by
      unfold interArea
      rw [min_self, max_self, min_self, max_self,
        max_eq_right (by linarith : (0:ℚ) ≤ a.x1 - a.x0),
        max_eq_right (by linarith : (0:ℚ) ≤ a.y1 - a.y0)]
    have hpos : 0 < (a.x1 - a.x0) * (a.y1 - a.y0) :=
      mul_pos (by linarith) (by linarith)
    have harea : boxArea a = (a.x1 - a.x0) * (a.y1 - a.y0) := by
      unfold boxArea
      rw [max_eq_right (le_of_lt hpos)]
    unfold _bbox_iou
    rw [hinter, harea, if_neg (not_le.mpr hpos),
      show (a.x1 - a.x0) * (a.y1 - a.y0) + (a.x1 - a.x0) * (a.y1 - a.y0) -
        (a.x1 - a.x0) * (a.y1 - a.y0) = (a.x1 - a.x0) * (a.y1 - a.y0) by ring,
      if_pos hpos]
    exact div_self (ne_of_gt hpos)
  case disj =>
    intro hd
    have hz : interArea a b = 0 := by
      rcases hd with hx | hy
      · exact interArea_eq_zero_of_x a b (by linarith)
      · exact interArea_eq_zero_of_y a b (by linarith)
    unfold _bbox_iou
    rw [hz, if_pos (le_refl 0)]
  case area =>
    intro hnp
    have hz : interArea a b = 0 := by
      rcases hnp with ha | hb
      · rcases le_or_lt (a.x1 - a.x0) 0 with h | h
        · refine interArea_eq_zero_of_x a b ?_
          have h1 : min a.x1 b.x1 ≤ a.x1 := min_le_left _ _
          have h2 : a.x0 ≤ max a.x0 b.x0 := le_max_left _ _
          linarith
        · have hy : a.y1 - a.y0 ≤ 0 := by nlinarith
          refine interArea_eq_zero_of_y a b ?_
          have h1 : min a.y1 b.y1 ≤ a.y1 := min_le_left _ _
          have h2 : a.y0 ≤ max a.y0 b.y0 := le_max_left _ _
          linarith
      · rcases le_or_lt (b.x1 - b.x0) 0 with h | h
        · refine interArea_eq_zero_of_x a b ?_
          have h1 : min a.x1 b.x1 ≤ b.x1 := min_le_right _ _
          have h2 : b.x0 ≤ max a.x0 b.x0 := le_max_right _ _
          linarith
        · have hy : b.y1 - b.y0 ≤ 0 := by nlinarith
          refine interArea_eq_zero_of_y a b ?_
          have h1 : min a.y1 b.y1 ≤ b.y1 := min_le_right _ _
          have h2 : b.y0 ≤ max a.y0 b.y0 := le_max_right _ _
          linarith
    unfold _bbox_iou
    rw [hz, if_pos (le_refl 0)]

/-- Witness for C8 at the unit boxes `(0,0,2,2)` and `(5,5,6,6)`. -/
theorem C8_iou_postconditions_witness :
    _bbox_iou ⟨0, 0, 2, 2⟩ ⟨5, 5, 6, 6⟩ = 0 ∧ _bbox_iou ⟨0, 0, 2, 2⟩ ⟨0, 0, 2, 2⟩ = 1 :=
  ⟨(C8_iou_postconditions ⟨0, 0, 2, 2⟩ ⟨5, 5, 6, 6⟩).2.2.1
      (by norm_num [boxDisjoint]),
   (C8_iou_postconditions ⟨0, 0, 2, 2⟩ ⟨0, 0, 2, 2⟩).2.1
      (by norm_num) (by norm_num)⟩

/-! ## Stable sort lemmas -/

theorem insertLe_mem {α : Type} (key : α → ℚ) (a x : α) :
    ∀ l : List α, x ∈ insertLe key a l → x = a ∨ x ∈ l := by
  intro l
  induction l with
  | nil => intro h; simp [insertLe] at h; exact Or.inl h
  | cons b t ih =>
    intro h
    unfold insertLe at h
    split_ifs at h with hc
    · rcases List.mem_cons.mp h with h | h
      · exact Or.inl h
      · exact Or.inr h
    · rcases List.mem_cons.mp h with h | h
      · exact Or.inr (by simp [h])
      · rcases ih h with h' | h'
        · exact Or.inl h'
        · exact Or.inr (by simp [h'])

theorem insertLe_sorted {α : Type} (key : α → ℚ) (a : α) :
    ∀ l : List α, List.Pairwise (fun x y => key x ≤ key y) l →
      List.Pairwise (fun x y => key x ≤ key y) (insertLe key a l) := by
  intro l
  induction l with
  | nil => intro _; simp [insertLe]
  | cons b t ih =>
    intro hp
    rcases List.pairwise_cons.mp hp with ⟨hb, ht⟩
    unfold insertLe
    split_ifs with hc
    · refine List.pairwise_cons.mpr ⟨?_, hp⟩
      intro x hx
      rcases List.mem_cons.mp hx with h | hx
      · rw [h]; exact hc
      · exact le_trans hc (hb x hx)
    · refine List.pairwise_cons.mpr ⟨?_, ih ht⟩
      intro x hx
      rcases insertLe_mem key a x t hx with h | hx
      · rw [h]; exact le_of_lt (not_le.mp hc)
      · exact hb x hx

theorem stableSortBy_sorted {α : Type} (key : α → ℚ) :
    ∀ l : List α, List.Pairwise (fun x y => key x ≤ key y) (stableSortBy key l) := by
  intro l
  induction l with
  | nil => simp [stableSortBy]
  | cons a t ih => exact insertLe_sorted key a _ ih

theorem insertLe_stable {α : Type} (key : α → ℚ) (R : α → α → Prop) (a : α) :
    ∀ l : List α,
      (∀ b ∈ l, key a = key b → R a b) →
      List.Pairwise (fun x y => key x = key y → R x y) l →
      List.Pairwise (fun x y => key x = key y → R x y) (insertLe key a l) := by
  intro l
  induction l with
  | nil => intro _ _; simp [insertLe]
  | cons b t ih =>
    intro ha hp
    rcases List.pairwise_cons.mp hp with ⟨hb, ht⟩
    unfold insertLe
    split_ifs with hc
    · refine List.pairwise_cons.mpr ⟨?_, hp⟩
      intro x hx
      rcases List.mem_cons.mp hx with h | hx
      · rw [h]; exact ha b (by simp)
      · exact ha x (by simp [hx])
    · refine List.pairwise_cons.mpr ⟨?_, ih (fun c hc' => ha c (by simp [hc'])) ht⟩
      intro x hx hkey
      rcases insertLe_mem key a x t hx with h | hx
      · rw [h] at hkey
        exact absurd hkey (ne_of_lt (not_le.mp hc))
      · exact hb x hx hkey

theorem stableSortBy_mem {α : Type} (key : α → ℚ) (x : α) :
    ∀ l : List α, x ∈ stableSortBy key l → x ∈ l := by
  intro l
  induction l with
  | nil => intro h; simp [stableSortBy] at h
  | cons a t ih =>
    intro h
    rcases insertLe_mem key a x _ h with rfl | h'
    · simp
    · simp [ih h']

theorem stableSortBy_stable {α : Type} (key : α → ℚ) (R : α → α → Prop) :
    ∀ l : List α,
      List.Pairwise (fun x y => key x = key y → R x y) l →
      List.Pairwise (fun x y => key x = key y → R x y) (stableSortBy key l) := by
  intro l
  induction l with
  | nil => intro _; simp [stableSortBy]
  | cons a t ih =>
    intro hp
    rcases List.pairwise_cons.mp hp with ⟨ha, ht⟩
    refine insertLe_stable key R a _ ?_ (ih ht)
    intro b hb hkey
    exact ha b (stableSortBy_mem key b t hb) hkey

theorem stableSortBy_eq_self {α : Type} (key : α → ℚ) :
    ∀ l : List α, List.Chain' (fun x y => key x ≤ key y) l → stableSortBy key l = l := by
  intro l
  induction l with
  | nil => intro _; rfl
  | cons a t ih =>
    intro hc
    have ht : List.Chain' (fun x y => key x ≤ key y) t := hc.tail
    unfold stableSortBy
    rw [ih ht]
    cases t with
    | nil => rfl
    | cons b u =>
      have hab : key a ≤ key b := List.chain'_cons.mp hc |>.1
      unfold insertLe
      rw [if_pos hab]

/-! ## C2: ordering of the composed elements -/

theorem table_elements_not_line (cands : List Candidate) (a : Element)
    (ha : a ∈ (retainedTables cands).map (fun t => Element.table t.bbox.y0 t)) :
    a.isLine = false := by
  rcases List.mem_map.mp ha with ⟨t, _, rfl⟩
  rfl

theorem line_elements_not_table (cands : List Candidate) (words : List RawWord) (a : Element)
    (ha : a ∈ (pageLineGroups cands words).map (fun p =>
      Element.line ((pageCenters cands words).getD p.1 0)
        (_merge_fragmented_words (stableSortBy (fun w => w.x0) p.2)))) :
    a.isTable = false := by
  rcases List.mem_map.mp ha with ⟨p, _, rfl⟩
  rfl

/-- C2: for every page the final `elements` sequence is sorted
non-decreasing in `y`, and the sort is stable so that at equal `y` a table
element never comes after a line element (tables are inserted into the
sequence before lines). -/
theorem C2_elements_sorted_tables_first (cands : List Candidate) (words : List RawWord) :
    List.Pairwise (fun a b => a.y ≤ b.y) (pageElements cands words) ∧
    List.Pairwise (fun a b => a.y = b.y → ¬(a.isLine = true ∧ b.isTable = true))
      (pageElements cands words) := by
  constructor
  · exact stableSortBy_sorted Element.y _
  · unfold pageElements
    apply stableSortBy_stable
    rw [List.pairwise_append]
    refine ⟨?_, ?_, ?_⟩
    · apply List.pairwise_of_forall_mem_list
      intro a ha b _ _
      rw [table_elements_not_line cands a ha]
      simp
    · apply List.pairwise_of_forall_mem_list
      intro a _ b hb _
      rw [line_elements_not_table cands words b hb]
      simp
    · intro a ha b _ _
      rw [table_elements_not_line cands a ha]
      simp

/-! ## Clustering lemmas -/

theorem chainGo_nil (tol v : ℚ) : chainGo tol v [] = ([v], []) := rfl

theorem chainGo_cons (tol v w : ℚ) (ws : List ℚ) :
    chainGo tol v (w :: ws) =
      if |w - v| ≤ tol then (v :: (chainGo tol w ws).1, (chainGo tol w ws).2)
      else ([v], (chainGo tol w ws).1 :: (chainGo tol w ws).2) := by
  simp only [chainGo]

theorem chainClusters_nil (tol v : ℚ) : chainClusters tol v [] = [[v]] := rfl

theorem chainClusters_cons_merge (tol v w : ℚ) (ws : List ℚ) (hm : |w - v| ≤ tol) :
    chainClusters tol v (w :: ws) =
      (v :: (chainGo tol w ws).1) :: (chainGo tol w ws).2 := by
  unfold chainClusters
  rw [chainGo_cons, if_pos hm]

theorem chainClusters_cons_break (tol v w : ℚ) (ws : List ℚ) (hm : ¬ |w - v| ≤ tol) :
    chainClusters tol v (w :: ws) =
      [v] :: (chainGo tol w ws).1 :: (chainGo tol w ws).2 := by
  unfold chainClusters
  rw [chainGo_cons, if_neg hm]

/-- The loop of `_cluster_positions` computes exactly the greedy chain
decomposition: folding `clusterStep` over the remaining values extends the
current cluster `cur ++ [last]` by `chainGo`. -/
theorem foldl_clusterStep (tol : ℚ) :
    ∀ (vs : List ℚ) (done : List (List ℚ)) (cur : List ℚ) (last : ℚ),
      vs.foldl (clusterStep tol) (done ++ [cur ++ [last]]) =
        done ++ (cur ++ (chainGo tol last vs).1) :: (chainGo tol last vs).2 := by
  intro vs
  induction vs with
  | nil => intro done cur last; simp [chainGo]
  | cons v ws ih =>
    intro done cur last
    have hstep : clusterStep tol (done ++ [cur ++ [last]]) v =
        if |v - last| ≤ tol then done ++ [(cur ++ [last]) ++ [v]]
        else (done ++ [cur ++ [last]]) ++ [[v]] := by
      unfold clusterStep
      rw [List.getLast?_concat]
      dsimp only
      rw [List.getLast?_concat, List.dropLast_concat]
    rw [List.foldl_cons, hstep, chainGo_cons]
    by_cases hm : |v - last| ≤ tol
    · rw [if_pos hm, if_pos hm, ih done (cur ++ [last]) v]
      simp
    · rw [if_neg hm, if_neg hm]
      have h2 : (done ++ [cur ++ [last]]) ++ [[v]] =
          (done ++ [cur ++ [last]]) ++ [[] ++ [v]] := by simp
      rw [h2, ih (done ++ [cur ++ [last]]) [] v]
      simp

theorem cluster_positions_eq (values : List ℚ) (tol : ℚ) :
    _cluster_positions values tol = (clustersOf values tol).map clusterMean := by
  unfold _cluster_positions clustersOf
  cases hs : sortQ values with
  | nil => rfl
  | cons v vs =>
    dsimp only
    have h0 : ([[v]] : List (List ℚ)) = [] ++ [[] ++ [v]] := by simp
    rw [h0, foldl_clusterStep tol vs [] [] v]
    rfl

theorem cluster_positions_eq_spec (values : List ℚ) (tol : ℚ) :
    _cluster_positions values tol = cluster_1d_spec values tol := by
  rw [cluster_positions_eq]
  unfold cluster_1d_spec clustersOf
  cases sortQ values <;> rfl

/-- The first cluster starts with the first value. -/
theorem chainGo_fst_cons (tol v : ℚ) (vs : List ℚ) :
    ∃ t, (chainGo tol v vs).1 = v :: t := by
  cases vs with
  | nil => exact ⟨[], rfl⟩
  | cons w ws =>
    rw [chainGo_cons]
    by_cases hm : |w - v| ≤ tol
    · rw [if_pos hm]; exact ⟨(chainGo tol w ws).1, rfl⟩
    · rw [if_neg hm]; exact ⟨[], rfl⟩

theorem getLastD_indep (c : List ℚ) (hne : c ≠ []) (x y : ℚ) :
    c.getLastD x = c.getLastD y := by
  rw [List.getLastD_eq_getLast?, List.getLastD_eq_getLast?]
  rcases List.exists_cons_of_ne_nil hne with ⟨a, t, rfl⟩
  cases hgl : (a :: t).getLast? with
  | none => simp [List.getLast?_eq_getLast] at hgl
  | some b => rfl

/-- On a sorted input, every cluster of the greedy chain decomposition is
nonempty and sorted, and adjacent clusters are separated by more than
`tol`. -/
theorem chainGo_sorted (tol : ℚ) :
    ∀ (vs : List ℚ) (v : ℚ), List.Chain' (· ≤ ·) (v :: vs) →
      (∀ c ∈ chainClusters tol v vs, c ≠ [] ∧ List.Chain' (· ≤ ·) c) ∧
      List.Chain' (BndRel tol) (chainClusters tol v vs) := by
  intro vs
  induction vs with
  | nil =>
    intro v _
    rw [chainClusters_nil]
    constructor
    · intro c hc
      rw [List.mem_singleton.mp hc]
      exact ⟨by simp, by simp⟩
    · simp
  | cons w ws ih =>
    intro v hchain
    have hvw : v ≤ w := (List.chain'_cons.mp hchain).1
    have hrest : List.Chain' (· ≤ ·) (w :: ws) := (List.chain'_cons.mp hchain).2
    rcases ih w hrest with ⟨ihne, ihchain⟩
    rcases chainGo_fst_cons tol w ws with ⟨t, ht⟩
    by_cases hm : |w - v| ≤ tol
    · rw [chainClusters_cons_merge tol v w ws hm]
      have hfirst : (chainGo tol w ws).1 ∈ chainClusters tol w ws := by
        unfold chainClusters; simp
      rcases ihne _ hfirst with ⟨hne1, hch1⟩
      constructor
      · intro c hc
        rcases List.mem_cons.mp hc with rfl | hc
        · refine ⟨by simp, ?_⟩
          rw [ht]
          rw [ht] at hch1
          exact List.chain'_cons.mpr ⟨hvw, hch1⟩
        · exact ihne c (by unfold chainClusters; simp [hc])
      · have hic : List.Chain' (BndRel tol) ((chainGo tol w ws).1 :: (chainGo tol w ws).2) :=
          ihchain
        cases hgs : (chainGo tol w ws).2 with
        | nil => simp
        | cons d ds =>
          rw [hgs] at hic
          refine List.chain'_cons.mpr ⟨?_, (List.chain'_cons.mp hic).2⟩
          have hrel : BndRel tol (chainGo tol w ws).1 d := (List.chain'_cons.mp hic).1
          unfold BndRel at *
          have hlast : (v :: (chainGo tol w ws).1).getLastD 0 = (chainGo tol w ws).1.getLastD 0 := by
            rw [List.getLastD_cons]
            exact getLastD_indep _ hne1 v 0
          rw [hlast]
          exact hrel
    · rw [chainClusters_cons_break tol v w ws hm]
      constructor
      · intro c hc
        rcases List.mem_cons.mp hc with rfl | hc
        · exact ⟨by simp, by simp⟩
        · exact ihne c (by unfold chainClusters; simpa using hc)
      · refine List.chain'_cons.mpr ⟨?_, ihchain⟩
        unfold BndRel
        rw [ht]
        have habs : tol < w - v := by
          rw [abs_of_nonneg (by linarith : (0:ℚ) ≤ w - v)] at hm
          linarith [not_le.mp hm]
        constructor
        · simp [hvw]
        · simpa using habs

theorem sum_ge_length_mul (a : ℚ) :
    ∀ l : List ℚ, (∀ x ∈ l, a ≤ x) → (l.length : ℚ) * a ≤ l.sum := by
  intro l
  induction l with
  | nil => intro _; simp
  | cons x t ih =>
    intro h
    have hx : a ≤ x := h x (by simp)
    have ht : (t.length : ℚ) * a ≤ t.sum := ih (fun y hy => h y (by simp [hy]))
    simp only [List.length_cons, List.sum_cons]
    push_cast
    linarith

theorem sum_le_length_mul (b : ℚ) :
    ∀ l : List ℚ, (∀ x ∈ l, x ≤ b) → l.sum ≤ (l.length : ℚ) * b := by
  intro l
  induction l with
  | nil => intro _; simp
  | cons x t ih =>
    intro h
    have hx : x ≤ b := h x (by simp)
    have ht : t.sum ≤ (t.length : ℚ) * b := ih (fun y hy => h y (by simp [hy]))
    simp only [List.length_cons, List.sum_cons]
    push_cast
    linarith

theorem le_getLastD_of_sorted :
    ∀ l : List ℚ, List.Pairwise (· ≤ ·) l → ∀ x ∈ l, x ≤ l.getLastD 0 := by
  intro l
  induction l with
  | nil => intro _ x hx; simp at hx
  | cons a t ih =>
    intro hp x hx
    rcases List.pairwise_cons.mp hp with ⟨ha, ht⟩
    cases t with
    | nil =>
      rcases List.mem_singleton.mp hx with rfl
      simp
    | cons b u =>
      have hlast : (a :: b :: u).getLastD 0 = (b :: u).getLastD 0 := by
        rw [List.getLastD_cons, getLastD_indep (b :: u) (by simp) a 0]
      rw [hlast]
      rcases List.mem_cons.mp hx with rfl | hx
      · have hbu : (b :: u).getLastD 0 ∈ b :: u := by
          rw [List.getLastD_eq_getLast?, List.getLast?_eq_getLast (b :: u) (by simp)]
          exact List.getLast_mem _
        exact ha _ hbu
      · exact ih ht x hx

theorem headD_le_of_sorted :
    ∀ l : List ℚ, List.Pairwise (· ≤ ·) l → ∀ x ∈ l, l.headD 0 ≤ x := by
  intro l
  induction l with
  | nil => intro _ x hx; simp at hx
  | cons a t _ =>
    intro hp x hx
    rcases List.pairwise_cons.mp hp with ⟨ha, _⟩
    rcases List.mem_cons.mp hx with rfl | hx
    · simp
    · simpa using ha x hx

/-- The mean of a nonempty sorted cluster lies between its first and last
elements. -/
theorem clusterMean_bounds (c : List ℚ) (hne : c ≠ []) (hs : List.Chain' (· ≤ ·) c) :
    c.headD 0 ≤ clusterMean c ∧ clusterMean c ≤ c.getLastD 0 := by
  have hp : List.Pairwise (· ≤ ·) c := List.chain'_iff_pairwise.mp hs
  have hn : (0:ℚ) < (c.length : ℚ) := by
    have : 0 < c.length := List.length_pos.mpr hne
    exact_mod_cast this
  constructor
  · rw [clusterMean, le_div_iff₀ hn]
    have := sum_ge_length_mul (c.headD 0) c (headD_le_of_sorted c hp)
    linarith
  · rw [clusterMean, div_le_iff₀ hn]
    have := sum_le_length_mul (c.getLastD 0) c (le_getLastD_of_sorted c hp)
    linarith

/-- The cluster means inherit the cluster gaps: adjacent means are ordered
and differ by more than `tol`. -/
theorem means_chain (tol : ℚ) :
    ∀ cs : List (List ℚ),
      (∀ c ∈ cs, c ≠ [] ∧ List.Chain' (· ≤ ·) c) →
      List.Chain' (BndRel tol) cs →
      List.Chain' (fun a b => a ≤ b ∧ tol < b - a) (cs.map clusterMean) := by
  intro cs
  induction cs with
  | nil => intro _ _; simp
  | cons c rest ih =>
    intro hcl hch
    cases rest with
    | nil => simp
    | cons d ds =>
      have hcd : BndRel tol c d := (List.chain'_cons.mp hch).1
      have hc : c ≠ [] ∧ List.Chain' (· ≤ ·) c := hcl c (by simp)
      have hd : d ≠ [] ∧ List.Chain' (· ≤ ·) d := hcl d (by simp)
      have hmc := clusterMean_bounds c hc.1 hc.2
      have hmd := clusterMean_bounds d hd.1 hd.2
      have htail : List.Chain' (fun a b => a ≤ b ∧ tol < b - a) ((d :: ds).map clusterMean) :=
        ih (fun x hx => hcl x (by simp [hx])) (List.chain'_cons.mp hch).2
      rw [List.map_cons]
      rw [List.map_cons] at htail ⊢
      refine List.chain'_cons.mpr ⟨?_, htail⟩
      rcases hcd with ⟨h1, h2⟩
      exact ⟨by linarith [hmc.2, hmd.1], by linarith [hmc.2, hmd.1]⟩

/-- The output of `_cluster_positions` is ascending with adjacent centers
separated by more than the tolerance. -/
theorem centers_chain (values : List ℚ) (tol : ℚ) :
    List.Chain' (fun a b => a ≤ b ∧ tol < b - a) (_cluster_positions values tol) := by
  rw [cluster_positions_eq]
  unfold clustersOf
  cases hs : sortQ values with
  | nil => simp
  | cons v vs =>
    have hsorted : List.Chain' (· ≤ ·) (v :: vs) := by
      have := stableSortBy_sorted (fun x => x) values
      rw [show stableSortBy (fun x => x) values = sortQ values from rfl, hs] at this
      exact List.Pairwise.chain' this
    rcases chainGo_sorted tol vs v hsorted with ⟨hne, hbnd⟩
    exact means_chain tol _ hne hbnd

/-- Greedy chaining over a list whose adjacent elements all differ by more
than the tolerance yields singleton clusters only. -/
theorem chainClusters_of_gaps (tol : ℚ) :
    ∀ (vs : List ℚ) (v : ℚ), List.Chain' (fun a b => ¬ |b - a| ≤ tol) (v :: vs) →
      chainClusters tol v vs = (v :: vs).map (fun x => [x]) := by
  intro vs
  induction vs with
  | nil => intro v _; rw [chainClusters_nil]; rfl
  | cons w ws ih =>
    intro v hch
    have hvw : ¬ |w - v| ≤ tol := (List.chain'_cons.mp hch).1
    have hrest : List.Chain' (fun a b => ¬ |b - a| ≤ tol) (w :: ws) :=
      (List.chain'_cons.mp hch).2
    rw [chainClusters_cons_break tol v w ws hvw,
      show (chainGo tol w ws).1 :: (chainGo tol w ws).2 = chainClusters tol w ws from rfl,
      ih w hrest]
    rfl

/-- C6: `cluster_1d` equals the reference greedy-chaining algorithm (sort
ascending, break a cluster when the next value differs from the last
accepted value by more than the tolerance, return the cluster means), its
output is ascending, and the empty input yields the empty output. -/
theorem C6_cluster_1d_reference (values : List ℚ) (tolerance : ℚ) :
    _cluster_positions values tolerance = cluster_1d_spec values tolerance ∧
    List.Chain' (· ≤ ·) (_cluster_positions values tolerance) ∧
    _cluster_positions [] tolerance = [] :=
  ⟨cluster_positions_eq_spec values tolerance,
   (centers_chain values tolerance).imp (fun _ _ h => h.1),
   rfl⟩

/-- C7: `cluster_1d` is idempotent on its own output: re-clustering the
returned centers with the same tolerance returns them unchanged, each center
forming a singleton cluster. -/
theorem C7_cluster_1d_idempotent (values : List ℚ) (tolerance : ℚ) :
    _cluster_positions (_cluster_positions values tolerance) tolerance =
      _cluster_positions values tolerance ∧
    clustersOf (_cluster_positions values tolerance) tolerance =
      (_cluster_positions values tolerance).map (fun x => [x]) := by
  have hgood := centers_chain values tolerance
  have hle : List.Chain' (fun x y => x ≤ y) (_cluster_positions values tolerance) :=
    hgood.imp (fun _ _ h => h.1)
  have hsort : sortQ (_cluster_positions values tolerance) =
      _cluster_positions values tolerance :=
    stableSortBy_eq_self (fun x => x) _ hle
  have hgaps : List.Chain' (fun a b => ¬ |b - a| ≤ tolerance)
      (_cluster_positions values tolerance) := by
    refine hgood.imp ?_
    intro a b h
    rw [abs_of_nonneg (by linarith [h.1] : (0:ℚ) ≤ b - a)]
    linarith [h.2]
  have hcl : clustersOf (_cluster_positions values tolerance) tolerance =
      (_cluster_positions values tolerance).map (fun x => [x]) := by
    unfold clustersOf
    rw [hsort]
    cases hc : _cluster_positions values tolerance with
    | nil => rfl
    | cons c cs' =>
      dsimp only
      exact chainClusters_of_gaps tolerance cs' c (hc ▸ hgaps)
  refine ⟨?_, hcl⟩
  rw [cluster_positions_eq, hcl, List.map_map]
  have hone : ∀ x : ℚ, clusterMean [x] = x := by
    intro x
    simp [clusterMean]
  calc (_cluster_positions values tolerance).map (clusterMean ∘ fun x => [x])
      = (_cluster_positions values tolerance).map id := by
        apply List.map_congr_left
        intro x _
        simp [Function.comp, hone]
    _ = _cluster_positions values tolerance := List.map_id _

/-! ## Text lemmas: strip and whitespace erasure -/

theorem cleanNW_append (a b : List Char) : cleanNW (a ++ b) = cleanNW a ++ cleanNW b :=
  List.filter_append a b

theorem cleanNW_dropWhile (l : List Char) :
    cleanNW (l.dropWhile Char.isWhitespace) = cleanNW l := by
  induction l with
  | nil => rfl
  | cons a t ih =>
    by_cases ha : a.isWhitespace = true
    · rw [List.dropWhile_cons, if_pos ha, ih]
      unfold cleanNW
      rw [List.filter_cons]
      simp [ha]
    · rw [List.dropWhile_cons, if_neg ha]

theorem cleanNW_reverse (l : List Char) : cleanNW l.reverse = (cleanNW l).reverse :=
  List.filter_reverse _ l

/-- Stripping never changes the non-whitespace content. -/
theorem cleanNW_pyStrip (l : List Char) : cleanNW (pyStrip l) = cleanNW l := by
  unfold pyStrip
  rw [cleanNW_reverse, cleanNW_dropWhile, cleanNW_reverse, cleanNW_dropWhile,
    List.reverse_reverse]

theorem dropWhile_ws_cons (a : Char) (r : List Char) (h : ¬ a.isWhitespace = true) :
    (a :: r).dropWhile Char.isWhitespace = a :: r := by
  rw [List.dropWhile_cons, if_neg h]

/-- A list whose first and last characters are not whitespace is unchanged by
`strip`. -/
theorem pyStrip_eq_self_of_ends (x : List Char) (hne : x ≠ [])
    (hh : ¬ ((x.headD ' ').isWhitespace = true))
    (hl : ¬ ((x.getLastD ' ').isWhitespace = true)) : pyStrip x = x := by
  rcases List.exists_cons_of_ne_nil hne with ⟨a, r, rfl⟩
  have h1 : (a :: r).dropWhile Char.isWhitespace = a :: r :=
    dropWhile_ws_cons a r (by simpa using hh)
  unfold pyStrip
  rw [h1]
  cases hrev : (a :: r).reverse with
  | nil => exact absurd hrev (by simp)
  | cons b t =>
    have hb : (a :: r).getLast? = some b := by
      rw [← List.head?_reverse, hrev]
      rfl
    have hbv : (a :: r).getLastD ' ' = b := by
      rw [List.getLastD_eq_getLast?, hb]
      rfl
    rw [hbv] at hl
    rw [dropWhile_ws_cons b t hl, ← hrev, List.reverse_reverse]

/-- The head and last character of a whitespace-free nonempty text are not
whitespace. -/
theorem cleanWord_ends (l : List Char) (h : cleanWord l) :
    ¬ ((l.headD ' ').isWhitespace = true) ∧ ¬ ((l.getLastD ' ').isWhitespace = true) := by
  rcases h with ⟨hne, hall⟩
  constructor
  · rcases List.exists_cons_of_ne_nil hne with ⟨a, r, rfl⟩
    exact hall a (by simp)
  · refine hall _ ?_
    rw [List.getLastD_eq_getLast?, List.getLast?_eq_getLast l hne]
    exact List.getLast_mem hne

/-! ## Fragment merger lemmas -/

theorem joinedText_cons (w : Word) (ws : List Word) :
    joinedText (w :: ws) = w.text ++ joinedText ws := rfl

theorem mergeGo_length : ∀ (ws : List Word) (prev : Word),
    (mergeGo prev ws).length ≤ ws.length + 1 := by
  intro ws
  induction ws with
  | nil => intro prev; simp [mergeGo]
  | cons w t ih =>
    intro prev
    unfold mergeGo
    split_ifs with hm
    · calc (mergeGo (mergeTok prev w) t).length ≤ t.length + 1 := ih _
        _ ≤ (w :: t).length + 1 := by simp
    · simpa using Nat.succ_le_succ (ih w)

theorem cleanNW_joiner (b : Prop) [Decidable b] :
    cleanNW (if b then ([] : List Char) else [' ']) = [] := by
  split_ifs <;> decide

theorem mergeGo_clean : ∀ (ws : List Word) (prev : Word),
    cleanNW (joinedText (mergeGo prev ws)) =
      cleanNW prev.text ++ cleanNW (joinedText ws) := by
  intro ws
  induction ws with
  | nil => intro prev; simp [mergeGo, joinedText, cleanNW]
  | cons w t ih =>
    intro prev
    unfold mergeGo
    split_ifs with hm
    · rw [ih (mergeTok prev w)]
      have htext : cleanNW (mergeTok prev w).text =
          cleanNW prev.text ++ cleanNW w.text := by
        show cleanNW (pyStrip _) = _
        rw [cleanNW_pyStrip, cleanNW_append, cleanNW_append, cleanNW_joiner]
        simp
      rw [htext, joinedText_cons, cleanNW_append]
      simp
    · rw [joinedText_cons, cleanNW_append, ih w, joinedText_cons, cleanNW_append]

/-- C5: fragment-merger conservation — the output never has more tokens than
the input, and the concatenated output texts carry exactly the non-whitespace
characters of the concatenated input texts in order (text is only ever glued
with an empty or single-space separator and re-stripped, never dropped). -/
theorem C5_merger_conservation (words : List Word) :
    (_merge_fragmented_words words).length ≤ words.length ∧
    cleanNW (joinedText (_merge_fragmented_words words)) = cleanNW (joinedText words) := by
  cases words with
  | nil => exact ⟨by simp [_merge_fragmented_words], rfl⟩
  | cons w ws =>
    constructor
    · simpa [_merge_fragmented_words] using mergeGo_length ws w
    · show cleanNW (joinedText (mergeGo w ws)) = _
      rw [mergeGo_clean ws w, joinedText_cons, cleanNW_append]

/-- C4: the fragment-merger rule — walking left-to-right, the next token is
absorbed into the current accumulated token exactly when the gap
`next.x0 - prev.x1` is at most 12 and either text has length at most 3 or
both are purely alphabetic; the joined text uses no separator when both are
alphabetic and one space otherwise (for whitespace-free nonempty texts the
final `strip` is the identity), the merged token takes the later token's
`x1`, and the fragments `"Jo"`/`"hn"` merge into `"John"`. -/
theorem C4_merge_rule (p w : Word) (ws : List Word)
    (hp : cleanWord p.text) (hw : cleanWord w.text) :
    (mergeGo p (w :: ws) =
      if shouldMerge p w then mergeGo (mergeTok p w) ws else p :: mergeGo w ws) ∧
    (shouldMerge p w ↔ (w.x0 - p.x1 ≤ 12 ∧
      (p.text.length ≤ 3 ∨ w.text.length ≤ 3 ∨
        (pyIsAlpha p.text = true ∧ pyIsAlpha w.text = true)))) ∧
    (mergeTok p w).text =
      p.text ++
        (if pyIsAlpha p.text = true ∧ pyIsAlpha w.text = true then [] else [' ']) ++
        w.text ∧
    (mergeTok p w).x1 = w.x1 ∧ (mergeTok p w).x0 = p.x0 ∧
    (_merge_fragmented_words [p, w] =
      if shouldMerge p w then [mergeTok p w] else [p, w]) ∧
    _merge_fragmented_words
        [⟨0, 10, 0, ['J', 'o']⟩, ⟨11, 20, 0, ['h', 'n']⟩] =
      [⟨0, 20, 0, ['J', 'o', 'h', 'n']⟩] := by
  refine ⟨rfl, Iff.rfl, ?text, rfl, rfl, ?pair, ?john⟩
  case text =>
    show pyStrip _ = _
    apply pyStrip_eq_self_of_ends
    · intro hcontra
      rw [List.append_eq_nil] at hcontra
      exact hw.1 hcontra.2
    · rcases List.exists_cons_of_ne_nil hp.1 with ⟨a, r, hpr⟩
      have ha : ¬ a.isWhitespace = true := hp.2 a (by rw [hpr]; simp)
      rw [hpr]
      simpa using ha
    · have hlast : ((p.text ++
          (if pyIsAlpha p.text = true ∧ pyIsAlpha w.text = true then [] else [' '])) ++
          w.text).getLast? = w.text.getLast? :=
        List.getLast?_append_of_ne_nil _ hw.1
      rw [List.getLastD_eq_getLast?, hlast, ← List.getLastD_eq_getLast?]
      exact (cleanWord_ends w.text hw).2
  case pair =>
    show mergeGo p [w] = _
    unfold mergeGo
    split_ifs with hm
    · rfl
    · rfl
  case john =>
    have hcond : shouldMerge ⟨0, 10, 0, ['J', 'o']⟩ ⟨11, 20, 0, ['h', 'n']⟩ :=
      ⟨by norm_num, Or.inl (by decide)⟩
    have htok : mergeTok ⟨0, 10, 0, ['J', 'o']⟩ ⟨11, 20, 0, ['h', 'n']⟩ =
        ⟨0, 20, 0, ['J', 'o', 'h', 'n']⟩ := by
      unfold mergeTok
      rw [if_pos (⟨by decide, by decide⟩ :
        pyIsAlpha ['J', 'o'] = true ∧ pyIsAlpha ['h', 'n'] = true)]
      rw [show pyStrip (['J', 'o'] ++ [] ++ ['h', 'n']) = ['J', 'o', 'h', 'n'] by decide]
    show mergeGo _ [_] = _
    rw [mergeGo, if_pos hcond, mergeGo, htok]

/-- Witness for C4: the `"Jo"`/`"hn"` scenario, with the hypotheses
discharged at the concrete fragments. -/
theorem C4_merge_rule_witness :
    _merge_fragmented_words
        [⟨0, 10, 0, ['J', 'o']⟩, ⟨11, 20, 0, ['h', 'n']⟩] =
      [⟨0, 20, 0, ['J', 'o', 'h', 'n']⟩] :=
  (C4_merge_rule ⟨0, 10, 0, ['J', 'o']⟩ ⟨11, 20, 0, ['h', 'n']⟩ []
    (by decide) (by decide)).2.2.2.2.2.2

/-! ## Page-level lemmas -/

/-- Every free word of a page carries a nonempty (stripped) text. -/
theorem freeWords_text_ne (bboxes : List Box) (words : List RawWord) :
    ∀ u ∈ freeWords bboxes words, u.text ≠ [] := by
  intro u hu
  rcases List.mem_filterMap.mp hu with ⟨w, _, hw⟩
  unfold freeWordOf at hw
  by_cases h1 : pyStrip w.text = []
  · rw [if_pos h1] at hw; cases hw
  · rw [if_neg h1] at hw
    by_cases h2 : _inside_table bboxes ((w.x0 + w.x1) / 2) ((w.y0 + w.y1) / 2) = true
    · rw [if_pos h2] at hw; cases hw
    · rw [if_neg h2] at hw
      cases hw
      exact h1

/-- C10 (implicit): a token whose text strips to empty is discarded before
the table/free-text partition — it yields no free word for any set of table
regions, and no line group of any page contains it. -/
theorem C10_whitespace_token_discarded (cands : List Candidate) (words : List RawWord)
    (bs : List Box) (w : RawWord) (hws : pyStrip w.text = []) :
    freeWordOf bs w = none ∧
    ∀ p ∈ pageLineGroups cands words,
      (⟨w.x0, w.x1, w.y0, pyStrip w.text⟩ : Word) ∉ p.2 := by
  constructor
  · unfold freeWordOf
    rw [if_pos hws]
  · intro p hp hmem
    unfold pageLineGroups lineGroups at hp
    rcases List.mem_map.mp hp with ⟨k, _, rfl⟩
    have hfw : (⟨w.x0, w.x1, w.y0, pyStrip w.text⟩ : Word) ∈
        pageFreeWords cands words := (List.mem_filter.mp hmem).1
    exact freeWords_text_ne (pageBBoxes cands) words _ hfw hws

/-- Witness for C10 at the single-space token `(0,0,1,1,\" \")`. -/
theorem C10_whitespace_token_discarded_witness :
    freeWordOf [] ⟨0, 0, 1, 1, [' ']⟩ = none ∧
    ∀ p ∈ pageLineGroups [] [],
      (⟨(0:ℚ), 1, 0, pyStrip [' ']⟩ : Word) ∉ p.2 :=
  C10_whitespace_token_discarded [] [] [] ⟨0, 0, 1, 1, [' ']⟩ (by decide)

/-- C9: a page yielding neither retained tables nor free text produces
exactly the single sentinel marker rather than an empty layout, and a page
with a nonempty element stream is rendered as that stream. -/
theorem C9_empty_page_sentinel (cands : List Candidate) (words : List RawWord) :
    (retainedTables cands = [] → pageFreeWords cands words = [] →
      renderPage cands words = .sentinel sentinelMsg) ∧
    (∀ e es, pageElements cands words = e :: es →
      renderPage cands words = .content (e :: es)) := by
  constructor
  · intro ht hf
    have hels : pageElements cands words = [] := by
      unfold pageElements pageLineGroups lineGroups
      rw [ht, hf]
      simp [stableSortBy, firstOccs]
    unfold renderPage
    rw [hels]
  · intro e es h
    unfold renderPage
    rw [h]

/-- Witness for C9: the empty page. -/
theorem C9_empty_page_sentinel_witness :
    renderPage [] [] = .sentinel sentinelMsg :=
  (C9_empty_page_sentinel [] []).1 rfl rfl

/-! ## Dedup lemmas -/

/-- Every candidate surviving the dedup loop overlaps no bbox of the `seen`
list by more than the threshold. -/
theorem dedupGo_no_overlap :
    ∀ (cs : List Candidate) (seen : List Box) (y : Candidate),
      y ∈ dedupGo seen cs → ∀ sb ∈ seen, ¬(_bbox_iou y.bbox sb > 3/4) := by
  intro cs
  induction cs with
  | nil => intro seen y hy; simp [dedupGo] at hy
  | cons c t ih =>
    intro seen y hy
    unfold dedupGo at hy
    split_ifs at hy with hdup
    · exact ih seen y hy
    · rcases List.mem_cons.mp hy with rfl | hy
      · intro sb hsb
        have := (List.any_eq_true.not.mp hdup)
        push_neg at this
        have hfalse := this sb hsb
        simpa using hfalse
      · intro sb hsb
        exact ih (seen ++ [c.bbox]) y hy sb (by simp [hsb])

/-- The dedup output is pairwise non-overlapping beyond the threshold (each
accepted candidate was checked against every previously accepted bbox). -/
theorem dedupGo_pairwise :
    ∀ (cs : List Candidate) (seen : List Box),
      List.Pairwise (fun x y => ¬(_bbox_iou y.bbox x.bbox > 3/4)) (dedupGo seen cs) := by
  intro cs
  induction cs with
  | nil => intro seen; simp [dedupGo]
  | cons c t ih =>
    intro seen
    unfold dedupGo
    split_ifs with hdup
    · exact ih seen
    · refine List.pairwise_cons.mpr ⟨?_, ih (seen ++ [c.bbox])⟩
      intro y hy
      exact dedupGo_no_overlap t (seen ++ [c.bbox]) y hy c.bbox (by simp)

/-- C3: table retention — processing candidates in strategy order, of two
candidates with `iou > 0.75` only the first survives dedup, with `iou = 0`
both survive, retained tables are exactly the dedup survivors passing the
shape filter `rows ≥ 2 ∧ cols ≥ 2 ∧ non_empty ≥ 4`, and dedup survivors
never mutually overlap beyond the threshold. -/
theorem C3_table_retention (a b : Candidate) (cands : List Candidate) :
    (_bbox_iou a.bbox b.bbox > 3/4 → _extract_tables_with_fallback [a, b] = [a]) ∧
    (_bbox_iou a.bbox b.bbox = 0 → _extract_tables_with_fallback [a, b] = [a, b]) ∧
    retainedTables cands = (_extract_tables_with_fallback cands).filter
      (fun c => decide (2 ≤ (_table_shape_quality c.data).1) &&
        decide (2 ≤ (_table_shape_quality c.data).2.1) &&
        decide (4 ≤ (_table_shape_quality c.data).2.2)) ∧
    List.Pairwise (fun x y => ¬(_bbox_iou y.bbox x.bbox > 3/4))
      (_extract_tables_with_fallback cands) := by
  refine ⟨?over, ?disj, ?filt, dedupGo_pairwise cands []⟩
  case over =>
    intro h
    have hba : _bbox_iou b.bbox a.bbox > 3/4 := by
      rw [bbox_iou_comm]; exact h
    unfold _extract_tables_with_fallback dedupGo
    simp [dedupGo, hba]
  case disj =>
    intro h
    have hba : ¬(_bbox_iou b.bbox a.bbox > 3/4) := by
      rw [bbox_iou_comm, h]; norm_num
    unfold _extract_tables_with_fallback dedupGo
    simp [dedupGo, hba]
  case filt =>
    unfold retainedTables
    apply List.filter_congr
    intro x _
    rw [Bool.eq_iff_iff]
    simp [not_lt]

/-- Witness for C3 at concrete candidates: `(0,0,10,10)` vs `(0,0,10,9)`
overlap at `iou = 9/10`, `(0,0,10,10)` vs `(20,20,30,30)` are disjoint. -/
theorem C3_table_retention_witness :
    _extract_tables_with_fallback
        [⟨⟨0, 0, 10, 10⟩, []⟩, ⟨⟨0, 0, 10, 9⟩, []⟩] = [⟨⟨0, 0, 10, 10⟩, []⟩] ∧
    _extract_tables_with_fallback
        [⟨⟨0, 0, 10, 10⟩, []⟩, ⟨⟨20, 20, 30, 30⟩, []⟩] =
      [⟨⟨0, 0, 10, 10⟩, []⟩, ⟨⟨20, 20, 30, 30⟩, []⟩] :=
  ⟨(C3_table_retention ⟨⟨0, 0, 10, 10⟩, []⟩ ⟨⟨0, 0, 10, 9⟩, []⟩ []).1
      (by norm_num [_bbox_iou, interArea, boxArea]),
   (C3_table_retention ⟨⟨0, 0, 10, 10⟩, []⟩ ⟨⟨20, 20, 30, 30⟩, []⟩ []).2.1
      (by norm_num [_bbox_iou, interArea, boxArea])⟩

/-! ## Line-group counting lemmas -/

theorem firstOccs_mem : ∀ (l : List ℕ) (x : ℕ), x ∈ firstOccs l ↔ x ∈ l := by
  intro l
  induction l using firstOccs.induct with
  | case1 => intro x; simp [firstOccs]
  | case2 a t ih =>
    intro x
    rw [firstOccs]
    constructor
    · intro hx
      rcases List.mem_cons.mp hx with rfl | hx
      · simp
      · have := (ih x).mp hx
        rcases List.mem_filter.mp this with ⟨hmem, _⟩
        simp [hmem]
    · intro hx
      rcases List.mem_cons.mp hx with rfl | hx
      · simp
      · by_cases hxa : x = a
        · simp [hxa]
        · right
          exact (ih x).mpr (List.mem_filter.mpr ⟨hx, by simpa using hxa⟩)

theorem firstOccs_nodup : ∀ l : List ℕ, (firstOccs l).Nodup := by
  intro l
  induction l using firstOccs.induct with
  | case1 => simp [firstOccs]
  | case2 a t ih =>
    rw [firstOccs]
    refine List.nodup_cons.mpr ⟨?_, ih⟩
    intro ha
    have := (firstOccs_mem _ a).mp ha
    rcases List.mem_filter.mp this with ⟨_, hne⟩
    simp at hne

theorem count_eq_one_nodup (l : List ℕ) (h : l.Nodup) (a : ℕ) (ha : a ∈ l) :
    l.count a = 1 :=
  le_antisymm (List.nodup_iff_count_le_one.mp h a) (List.count_pos_iff.mpr ha)

/-- Each free word of the page lies in exactly one line group. -/
theorem lineGroupCount_eq_one (cands : List Candidate) (words : List RawWord)
    (wd : Word) (hwd : wd ∈ pageFreeWords cands words) :
    lineGroupCount cands words wd = 1 := by
  unfold lineGroupCount pageLineGroups lineGroups
  rw [List.countP_map]
  have hcongr : ∀ k ∈ firstOccs ((pageFreeWords cands words).map
        (fun w => _nearest_index w.y0 (pageCenters cands words))),
      ((fun p : ℕ × List Word => decide (wd ∈ p.2)) ∘
        (fun k => (k, (pageFreeWords cands words).filter
          (fun w => _nearest_index w.y0 (pageCenters cands words) == k)))) k = true ↔
      (k == _nearest_index wd.y0 (pageCenters cands words)) = true := by
    intro k _
    simp only [Function.comp, decide_eq_true_eq, beq_iff_eq]
    constructor
    · intro hmem
      rcases List.mem_filter.mp hmem with ⟨_, hkk⟩
      exact (beq_iff_eq.mp hkk).symm
    · intro hkk
      exact List.mem_filter.mpr ⟨hwd, beq_iff_eq.mpr hkk.symm⟩
  rw [List.countP_congr hcongr]
  have hk0 : _nearest_index wd.y0 (pageCenters cands words) ∈
      firstOccs ((pageFreeWords cands words).map
        (fun w => _nearest_index w.y0 (pageCenters cands words))) :=
    (firstOccs_mem _ _).mpr (List.mem_map_of_mem _ hwd)
  exact count_eq_one_nodup _ (firstOccs_nodup _) _ hk0

/-- C1 (amended): every input token with nonempty stripped text is either a
free token — contributing exactly one word to exactly one line group — or
has its center inside at least one retained table's expanded bbox and is
excluded from free-text processing; never both. (The original "exactly one
retained table" fails: retained tables may still overlap below the dedup
threshold, see the counterexample.) -/
theorem C1_token_partition (cands : List Candidate) (words : List RawWord)
    (w : RawWord) (hw : w ∈ words) (htext : pyStrip w.text ≠ []) :
    (_inside_table (pageBBoxes cands) ((w.x0 + w.x1) / 2) ((w.y0 + w.y1) / 2) = false →
      freeWordOf (pageBBoxes cands) w = some ⟨w.x0, w.x1, w.y0, pyStrip w.text⟩ ∧
      lineGroupCount cands words ⟨w.x0, w.x1, w.y0, pyStrip w.text⟩ = 1) ∧
    (_inside_table (pageBBoxes cands) ((w.x0 + w.x1) / 2) ((w.y0 + w.y1) / 2) = true →
      freeWordOf (pageBBoxes cands) w = none ∧ 1 ≤ tableRegionCount cands w) := by
  constructor
  · intro hin
    have hsome : freeWordOf (pageBBoxes cands) w =
        some ⟨w.x0, w.x1, w.y0, pyStrip w.text⟩ := by
      unfold freeWordOf
      rw [if_neg htext, if_neg (by simp [hin])]
    refine ⟨hsome, lineGroupCount_eq_one cands words _ ?_⟩
    exact List.mem_filterMap.mpr ⟨w, hw, hsome⟩
  · intro hin
    constructor
    · unfold freeWordOf
      rw [if_neg htext, if_pos hin]
    · unfold tableRegionCount
      rcases List.any_eq_true.mp hin with ⟨b, hb, hbc⟩
      exact List.countP_pos_iff.mpr ⟨b, hb, hbc⟩

/-- Witness for C1 on a table-free page with the single token `"x"`. -/
theorem C1_token_partition_witness :
    freeWordOf (pageBBoxes []) ⟨0, 0, 10, 10, ['x']⟩ =
      some ⟨0, 10, 0, pyStrip ['x']⟩ ∧
    lineGroupCount [] [⟨0, 0, 10, 10, ['x']⟩] ⟨0, 10, 0, pyStrip ['x']⟩ = 1 :=
  (C1_token_partition [] [⟨0, 0, 10, 10, ['x']⟩] ⟨0, 0, 10, 10, ['x']⟩
    (by simp) (by decide)).1 rfl

/-! ## C1 counterexample computation -/

theorem cex_iou : _bbox_iou ⟨5, 0, 15, 10⟩ ⟨0, 0, 10, 10⟩ = 1/3 := by
  norm_num [_bbox_iou, interArea, boxArea, min_def, max_def]

theorem cex_dedup : _extract_tables_with_fallback cexCands = cexCands := by
  have hle : ¬(_bbox_iou (⟨5, 0, 15, 10⟩ : Box) ⟨0, 0, 10, 10⟩ > 3/4) := by
    rw [cex_iou]; norm_num
  unfold _extract_tables_with_fallback cexCands
  simp [dedupGo, hle]

theorem cex_quality : _table_shape_quality cexData = (2, 2, 4) := by decide

theorem cex_retained : retainedTables cexCands = cexCands := by
  unfold retainedTables
  rw [cex_dedup]
  show List.filter _ cexCands = cexCands
  rw [cexCands]
  simp only [List.filter_cons, List.filter_nil]
  norm_num [cex_quality]

theorem cex_bboxes : pageBBoxes cexCands = [⟨0, 0, 10, 10⟩, ⟨5, 0, 15, 10⟩] := by
  unfold pageBBoxes
  rw [cex_retained]
  rfl

theorem cex_region_two : tableRegionCount cexCands cexToken = 2 := by
  unfold tableRegionCount
  rw [cex_bboxes]
  norm_num [List.countP_cons, List.countP_nil, expandedContains, cexToken]

theorem cex_region_zero : tableRegionCount cexCands cexTokenWS = 0 := by
  unfold tableRegionCount
  rw [cex_bboxes]
  norm_num [List.countP_cons, List.countP_nil, expandedContains, cexTokenWS]

theorem cex_free_none :
    freeWordOf [⟨0, 0, 10, 10⟩, ⟨5, 0, 15, 10⟩] cexToken = none := by
  unfold freeWordOf
  rw [if_neg (by decide : ¬(pyStrip cexToken.text = []))]
  rw [if_pos (by norm_num [_inside_table, List.any_cons, expandedContains, cexToken])]

theorem cex_free_ws_none :
    freeWordOf [⟨0, 0, 10, 10⟩, ⟨5, 0, 15, 10⟩] cexTokenWS = none := by
  unfold freeWordOf
  rw [if_pos (by decide : pyStrip cexTokenWS.text = [])]

theorem cex_free_words : pageFreeWords cexCands cexWords = [] := by
  unfold pageFreeWords freeWords cexWords
  rw [cex_bboxes]
  simp [List.filterMap_cons, cex_free_none, cex_free_ws_none]

theorem cex_groups : pageLineGroups cexCands cexWords = [] := by
  unfold pageLineGroups lineGroups
  rw [cex_free_words]
  simp [firstOccs]

theorem cex_line_count (wd : Word) : lineGroupCount cexCands cexWords wd = 0 := by
  unfold lineGroupCount
  rw [cex_groups]
  rfl

/-- Counterexample to C1 as stated: on the page with two retained tables of
`iou = 1/3`, the token `"x"` centered at `(7,5)` lies in zero line groups
and in two retained-table regions, and the whitespace token lies in zero
line groups and zero regions — neither is in exactly one line nor in exactly
one retained table region. -/
theorem C1_token_partition_counterexample :
    cexToken ∈ cexWords ∧ pyStrip cexToken.text ≠ [] ∧
    ¬ C1ClaimAt cexCands cexWords cexToken ∧
    cexTokenWS ∈ cexWords ∧ ¬ C1ClaimAt cexCands cexWords cexTokenWS := by
  refine ⟨by simp [cexWords], by decide, ?_, by simp [cexWords], ?_⟩
  · unfold C1ClaimAt
    rw [cex_line_count, cex_region_two]
    norm_num
  · unfold C1ClaimAt
    rw [cex_line_count, cex_region_zero]
    norm_num

end Nova
